import Mathlib

/-!
Verification of the hmp2_workflows repository (HMP2/IBDMDB metadata pipeline).

This file gives a shallow embedding of the functions the claims concern:

* `depth_first_dcc_delete.py` : the post-order document-tree delete
  (`delete_nodes`, embedded as a trace-producing function over rose trees),
* `depth_first_abund_matrix_dcc_delete.py` : the per-row abundance-matrix
  delete loop,
* `update_ibdmdb_metadata.py` : `generate_external_id`,
  `resolve_dupe_ssc_ids`, and the concat / drop_duplicates / null-fill
  sequence of `main`,
* `qc_biopsy_and_blood_samples.py` : `check_sample_mapping` and the
  character-substitution reconciliation loop of `main`,
* `tasks/common.py` : `verify_files`,
* `utils/misc.py` (absent from the source tree) : `get_sample_id_from_fname`,
  modelled from the spec.

Python strings are embedded as `String` / `List Char`; `str.replace` is
implemented character by character below.  Remote OSDF objects are reduced to
their node names; remote delete outcomes are an oracle `String → Bool`.
-/

/-- Embedding of Python `s.replace(old, new)` (all non-overlapping occurrences,
scanned left to right), with explicit fuel so that the kernel can evaluate it.
The behaviour for `old = []` differs from Python (Python inserts `new` at every
position); no call site of the repository uses an empty pattern. -/
def pyReplaceFuel : Nat → List Char → List Char → List Char → List Char
  | _, [], _, _ => []
  | 0, s, _, _ => s
  | n + 1, c :: rest, old, new =>
    if old ≠ [] ∧ old.isPrefixOf (c :: rest) then
      new ++ pyReplaceFuel n ((c :: rest).drop old.length) old new
    else
      c :: pyReplaceFuel n rest old new

/-- Python `s.replace(old, new)` on character lists. -/
def pyReplace (s old new : List Char) : List Char :=
  pyReplaceFuel s.length s old new

/-- Python `s.replace(old, new)` on strings. -/
def pyReplaceS (s old new : String) : String :=
  String.mk (pyReplace s.data old.data new.data)

/-- Embedding of Python `os.path.basename`: the part after the last slash. -/
def basenameCh (l : List Char) : List Char :=
  (l.reverse.takeWhile (fun c => c ≠ '/')).reverse

/-- `os.path.basename` on strings. -/
def basenameS (f : String) : String :=
  String.mk (basenameCh f.data)

/-! ## The OSDF document tree (`depth_first_dcc_delete.py`)

`build_osdf_tree` / `filter_osdf_tree` build an `anytree` tree of document
nodes: each node carries a name (the OSDF id, or `"root"` for the root node
both builders create) and a list of children.  We embed such trees as rose
trees of names; `anytree.PostOrderIter` is embedded as `postorder`. -/

inductive OTree where
  | node : String → List OTree → OTree

def OTree.name : OTree → String
  | OTree.node n _ => n

def OTree.children : OTree → List OTree
  | OTree.node _ cs => cs

mutual

/-- The order in which `anytree.PostOrderIter` yields the nodes of a tree:
all children subtrees, left to right, then the node itself. -/
def postorder : OTree → List String
  | OTree.node n cs => postorderList cs ++ [n]

def postorderList : List OTree → List String
  | [] => []
  | t :: ts => postorder t ++ postorderList ts

end

mutual

/-- All node names of a tree (the node itself and its descendants). -/
def nodesOf : OTree → List String
  | OTree.node n cs => n :: nodesOfList cs

def nodesOfList : List OTree → List String
  | [] => []
  | t :: ts => nodesOf t ++ nodesOfList ts

end

mutual

/-- All (ancestor, proper descendant) name pairs of a tree. -/
def descPairs : OTree → List (String × String)
  | OTree.node n cs => (nodesOfList cs).map (fun d => (n, d)) ++ descPairsList cs

def descPairsList : List OTree → List (String × String)
  | [] => []
  | t :: ts => descPairs t ++ descPairsList ts

end

/-- Induction over rose trees with the hypothesis available for every child. -/
theorem otree_ind (P : OTree → Prop)
    (h : ∀ n cs, (∀ c ∈ cs, P c) → P (OTree.node n cs)) : ∀ t, P t
  | OTree.node n cs => h n cs (fun c _ => otree_ind P h c)
termination_by t => sizeOf t
decreasing_by
  rename_i hc
  have h1 := List.sizeOf_lt_of_mem hc
  simp only [OTree.node.sizeOf_spec]
  omega

theorem mem_postorderList {x : String} {ts : List OTree} :
    x ∈ postorderList ts ↔ ∃ t ∈ ts, x ∈ postorder t := by
  induction ts with
  | nil => simp [postorderList]
  | cons t ts ih => simp [postorderList, ih]

theorem mem_nodesOfList {x : String} {ts : List OTree} :
    x ∈ nodesOfList ts ↔ ∃ t ∈ ts, x ∈ nodesOf t := by
  induction ts with
  | nil => simp [nodesOfList]
  | cons t ts ih => simp [nodesOfList, ih]

theorem mem_descPairsList {q : String × String} {ts : List OTree} :
    q ∈ descPairsList ts ↔ ∃ t ∈ ts, q ∈ descPairs t := by
  induction ts with
  | nil => simp [descPairsList]
  | cons t ts ih => simp [descPairsList, ih]

theorem mem_postorder_iff {x : String} : ∀ {t : OTree}, x ∈ postorder t ↔ x ∈ nodesOf t := by
  intro t
  induction t using otree_ind with
  | h n cs ih =>
    simp only [postorder, nodesOf, List.mem_append, List.mem_singleton, List.mem_cons,
      mem_postorderList, mem_nodesOfList, List.not_mem_nil, or_false]
    constructor
    · rintro (⟨c, hc, hx⟩ | rfl)
      · exact Or.inr ⟨c, hc, (ih c hc).1 hx⟩
      · exact Or.inl rfl
    · rintro (rfl | ⟨c, hc, hx⟩)
      · exact Or.inr rfl
      · exact Or.inl ⟨c, hc, (ih c hc).2 hx⟩

theorem postorderList_split {c : OTree} {cs : List OTree} (h : c ∈ cs) :
    ∃ A B, postorderList cs = A ++ (postorder c ++ B) := by
  induction cs with
  | nil => cases h
  | cons t ts ih =>
    rcases List.mem_cons.1 h with rfl | h
    · exact ⟨[], postorderList ts, by simp [postorderList]⟩
    · obtain ⟨A, B, hAB⟩ := ih h
      exact ⟨postorder t ++ A, B, by simp [postorderList, hAB]⟩

theorem descPairs_mem_nodes : ∀ t : OTree, ∀ p d : String,
    (p, d) ∈ descPairs t → p ∈ nodesOf t ∧ d ∈ nodesOf t := by
  intro t
  induction t using otree_ind with
  | h n cs ih =>
    intro p d hpd
    simp only [descPairs, List.mem_append, List.mem_map, mem_descPairsList] at hpd
    rcases hpd with ⟨d0, hd0, heq⟩ | ⟨c, hc, hpc⟩
    · cases heq
      exact ⟨List.mem_cons_self _ _, List.mem_cons_of_mem _ hd0⟩
    · have h2 := ih c hc p d hpc
      constructor
      · exact List.mem_cons_of_mem _ (mem_nodesOfList.2 ⟨c, hc, h2.1⟩)
      · exact List.mem_cons_of_mem _ (mem_nodesOfList.2 ⟨c, hc, h2.2⟩)

theorem postorder_desc_aux : ∀ t : OTree, (postorder t).Nodup → ∀ p d : String,
    (p, d) ∈ descPairs t →
    List.indexOf d (postorder t) < List.indexOf p (postorder t) := by
  intro t
  induction t using otree_ind with
  | h n cs ih =>
    intro hnd p d hdesc
    simp only [postorder] at hnd ⊢
    simp only [descPairs, List.mem_append, List.mem_map, Prod.mk.injEq,
      mem_descPairsList] at hdesc
    rcases hdesc with ⟨d0, hd0, hpn, hdd⟩ | ⟨c, hc, hpc⟩
    · rw [← hpn, ← hdd]
      have hdpl : d0 ∈ postorderList cs := by
        obtain ⟨c, hc, hdc⟩ := mem_nodesOfList.1 hd0
        exact mem_postorderList.2 ⟨c, hc, mem_postorder_iff.2 hdc⟩
      have hnotin : n ∉ postorderList cs := by
        intro hmem
        exact (List.nodup_append.1 hnd).2.2 hmem (List.mem_singleton_self n)
      rw [List.indexOf_append_of_mem hdpl, List.indexOf_append_of_not_mem hnotin]
      have h1 : List.indexOf d0 (postorderList cs) < (postorderList cs).length :=
        List.indexOf_lt_length.2 hdpl
      omega
    · obtain ⟨A, B, hAB⟩ := postorderList_split hc
      rw [hAB] at hnd ⊢
      rw [List.append_assoc, List.append_assoc] at hnd ⊢
      have hmem := descPairs_mem_nodes c p d hpc
      have hd_pc : d ∈ postorder c := mem_postorder_iff.2 hmem.2
      have hp_pc : p ∈ postorder c := mem_postorder_iff.2 hmem.1
      have hnd1 := List.nodup_append.1 hnd
      have hnd2 := List.nodup_append.1 hnd1.2.1
      have hdA : d ∉ A := fun hmA => hnd1.2.2 hmA (List.mem_append_left _ hd_pc)
      have hpA : p ∉ A := fun hmA => hnd1.2.2 hmA (List.mem_append_left _ hp_pc)
      rw [List.indexOf_append_of_not_mem hdA, List.indexOf_append_of_not_mem hpA,
        List.indexOf_append_of_mem hd_pc, List.indexOf_append_of_mem hp_pc]
      have := ih c hc hnd2.1 p d hpc
      omega

/-- C1: in the order `anytree.PostOrderIter` produces (the order in which
`delete_nodes` processes and deletes nodes), every proper descendant of a node
occurs strictly before that node, for trees whose node names are distinct (OSDF
ids are unique). -/
theorem delete_nodes_postorder_desc_first (t : OTree) (p d : String)
    (hnd : (postorder t).Nodup) (hdesc : (p, d) ∈ descPairs t) :
    List.indexOf d (postorder t) < List.indexOf p (postorder t) :=
  postorder_desc_aux t hnd p d hdesc

/-- Witness for C1 on a concrete tree. -/
theorem delete_nodes_postorder_desc_first_witness :
    List.indexOf "c" (postorder (OTree.node "root"
      [OTree.node "a" [OTree.node "c" []], OTree.node "b" []])) <
    List.indexOf "root" (postorder (OTree.node "root"
      [OTree.node "a" [OTree.node "c" []], OTree.node "b" []])) :=
  delete_nodes_postorder_desc_first
    (OTree.node "root" [OTree.node "a" [OTree.node "c" []], OTree.node "b" []])
    "root" "c" (by decide) (by decide)

/-! ## Trace model of `delete_nodes` and of the abundance-matrix delete loop

`delete_nodes(root_node, dry_run, delete_root, stop_node)` iterates the tree
in post order; for each node not named `"root"` it prints the node and, when
not in dry-run mode, calls `node.osdf.delete()`, collecting nodes whose delete
returned a falsy result into `failed_delete`.  After the loop, when that list
is nonempty, it runs
`print "WARNING: ..." + "\n".join(failed_delete)`; `failed_delete` holds
cutlass objects, not strings, so the join raises an uncaught TypeError and the
run aborts there (modelled as a trailing `raiseTypeError` event).  Only when
the failure list is empty does control reach the final block: when
`delete_root and stop_node == "root"`, print the root banner and (when not in
dry-run mode) delete the root node.  We record every print and every remote
delete call as an event; the remote delete outcome is an oracle
`del : String → Bool`. -/

inductive Ev where
  | printDeleting : String → Ev
  | printFailed : String → Ev
  | printDeletingRoot : Ev
  | printInfo : String → Ev
  | deleteCall : String → Ev
  | raiseTypeError : Ev
deriving DecidableEq

/-- The events a single loop iteration of `delete_nodes` emits for the node
named `n`. -/
def nodeEvents (del : String → Bool) (dry_run : Bool) (n : String) : List Ev :=
  if dry_run then
    if n ≠ "root" then [Ev.printDeleting n] else []
  else
    if n ≠ "root" then
      [Ev.printDeleting n, Ev.deleteCall n] ++
        (if del n then [] else [Ev.printFailed n])
    else []

/-- The failure-list entries a single loop iteration appends (`failed_delete`):
only a real (non dry-run) delete of a node not named `"root"` whose delete
returned a falsy result is recorded. -/
def nodeFailed (del : String → Bool) (dry_run : Bool) (n : String) : List String :=
  if ¬dry_run ∧ n ≠ "root" ∧ del n = false then [n] else []

/-- The post-order loop of `delete_nodes`: events emitted and failure list
accumulated, over a given node order. -/
def deleteWalk (del : String → Bool) (dry_run : Bool) : List String → List Ev × List String
  | [] => ([], [])
  | n :: rest =>
    let w := deleteWalk del dry_run rest
    (nodeEvents del dry_run n ++ w.1, nodeFailed del dry_run n ++ w.2)

/-- Trace of `delete_nodes(root_node, dry_run, delete_root, stop_node)`: the
post-order walk, then either the TypeError raised by the warning print (when
any delete failed) or, with an empty failure list, the root-delete block. -/
def delete_nodes (t : OTree) (dry_run delete_root : Bool) (stop_node : String)
    (del : String → Bool) : List Ev :=
  let w := deleteWalk del dry_run (postorder t)
  w.1 ++
    (if w.2 ≠ [] then
      [Ev.raiseTypeError]
    else
      if delete_root = true ∧ stop_node = "root" then
        [Ev.printDeletingRoot] ++ (if dry_run then [] else [Ev.deleteCall t.name])
      else [])

/-- A remote mutation event. -/
def isDeleteEv : Ev → Bool
  | Ev.deleteCall _ => true
  | _ => false

/-- Names printed by `print "DELETING NODE:", node` statements of a trace. -/
def deletingPrints (evs : List Ev) : List String :=
  evs.filterMap (fun e => match e with | Ev.printDeleting n => some n | _ => none)

/-- Names passed to `osdf.delete()` calls of a trace. -/
def deleteCalls (evs : List Ev) : List String :=
  evs.filterMap (fun e => match e with | Ev.deleteCall n => some n | _ => none)

/-- One row of the `host_tx_tree` zip of
`depth_first_abund_matrix_dcc_delete.py`: the linked visit, sample, prep,
sequence set and abundance matrix ids, plus the optional first element of the
sample-attribute and visit-attribute generators. -/
structure AbundRow where
  visit : String
  sample : String
  prep : String
  seq_set : String
  abund : String
  sample_attr : Option String
  visit_attr : Option String

/-- Events of one iteration of the delete loop of
`depth_first_abund_matrix_dcc_delete.py`: five informational prints, then,
only when not in dry-run mode, the seven (or five) delete calls. -/
def abundRowEvents (r : AbundRow) (dry_run : Bool) : List Ev :=
  [Ev.printInfo r.visit, Ev.printInfo r.sample, Ev.printInfo r.prep,
   Ev.printInfo r.seq_set, Ev.printInfo r.abund] ++
    (if dry_run then []
     else
      [Ev.deleteCall r.abund, Ev.deleteCall r.seq_set, Ev.deleteCall r.prep] ++
        (match r.sample_attr with
          | some a => [Ev.deleteCall a]
          | none => [Ev.printInfo "DEBUG: No sample_attr"]) ++
        [Ev.deleteCall r.sample] ++
        (match r.visit_attr with
          | some a => [Ev.deleteCall a]
          | none => [Ev.printInfo "DEBUG: No visit_attr"]) ++
        [Ev.deleteCall r.visit])

/-- Trace of the delete loop of `main` in
`depth_first_abund_matrix_dcc_delete.py`. -/
def abund_main (rows : List AbundRow) (dry_run : Bool) : List Ev :=
  (rows.map (fun r => abundRowEvents r dry_run)).flatten

theorem mem_nodeEvents {del : String → Bool} {dry : Bool} {n : String} {e : Ev}
    (h : e ∈ nodeEvents del dry n) :
    n ≠ "root" ∧ (e = Ev.printDeleting n ∨ e = Ev.printFailed n ∨
      (dry = false ∧ e = Ev.deleteCall n)) := by
  by_cases hr : n = "root"
  · exfalso
    by_cases hd : dry <;> simp [nodeEvents, hd, hr] at h
  · refine ⟨hr, ?_⟩
    by_cases hd : dry
    · simp [nodeEvents, hd, hr] at h
      exact Or.inl h
    · simp only [Bool.not_eq_true] at hd
      subst hd
      by_cases hdel : del n <;> simp [nodeEvents, hr, hdel] at h
      · rcases h with h | h
        · exact Or.inl h
        · exact Or.inr (Or.inr ⟨rfl, h⟩)
      · rcases h with h | h | h
        · exact Or.inl h
        · exact Or.inr (Or.inr ⟨rfl, h⟩)
        · exact Or.inr (Or.inl h)

theorem mem_deleteWalk {del : String → Bool} {dry : Bool} {e : Ev} :
    ∀ {order : List String}, e ∈ (deleteWalk del dry order).1 →
      ∃ n ∈ order, e ∈ nodeEvents del dry n := by
  intro order
  induction order with
  | nil => intro h; cases h
  | cons n rest ih =>
    intro h
    rcases List.mem_append.1 h with h | h
    · exact ⟨n, List.mem_cons_self _ _, h⟩
    · obtain ⟨m, hm, he⟩ := ih h
      exact ⟨m, List.mem_cons_of_mem _ hm, he⟩

theorem deleteWalk_deleteCalls (del : String → Bool) : ∀ order : List String,
    deleteCalls (deleteWalk del false order).1 = order.filter (fun n => n != "root") := by
  intro order
  induction order with
  | nil => rfl
  | cons n rest ih =>
    simp only [deleteWalk, deleteCalls, List.filterMap_append, List.filter_cons]
    by_cases hr : n = "root"
    · subst hr
      simp [nodeEvents]
      exact ih
    · by_cases hdel : del n <;>
        simp [nodeEvents, hr, hdel, deleteCalls] at ih ⊢ <;> exact ih

theorem deleteWalk_deletingPrints (del : String → Bool) (dry : Bool) :
    ∀ order : List String,
    deletingPrints (deleteWalk del dry order).1 = order.filter (fun n => n != "root") := by
  intro order
  induction order with
  | nil => rfl
  | cons n rest ih =>
    simp only [deleteWalk, deletingPrints, List.filterMap_append, List.filter_cons]
    by_cases hr : n = "root"
    · subst hr
      cases dry <;> simp [nodeEvents] <;> exact ih
    · cases dry <;> by_cases hdel : del n <;>
        simp [nodeEvents, hr, hdel, deletingPrints] at ih ⊢ <;> exact ih

theorem deleteWalk_failed (del : String → Bool) : ∀ order : List String,
    (deleteWalk del false order).2 = order.filter (fun n => (n != "root") && !del n) := by
  intro order
  induction order with
  | nil => rfl
  | cons n rest ih =>
    simp only [deleteWalk, nodeFailed, List.filter_cons]
    by_cases hr : n = "root"
    · subst hr
      simp [ih]
    · by_cases hdel : del n <;> simp [hr, hdel, ih]

theorem deleteWalk_failed_dry (del : String → Bool) : ∀ order : List String,
    (deleteWalk del true order).2 = [] := by
  intro order
  induction order with
  | nil => rfl
  | cons n rest ih =>
    simp [deleteWalk, nodeFailed, ih]

theorem deleteWalk_dry_no_deletes (del : String → Bool) (order : List String) :
    ((deleteWalk del true order).1.countP isDeleteEv) = 0 := by
  rw [List.countP_eq_zero]
  intro e he
  obtain ⟨n, _, hev⟩ := mem_deleteWalk he
  rcases (mem_nodeEvents hev).2 with rfl | rfl | ⟨hfalse, _⟩
  · simp [isDeleteEv]
  · simp [isDeleteEv]
  · cases hfalse

theorem abund_main_dry_no_deletes (rows : List AbundRow) :
    ((abund_main rows true).countP isDeleteEv) = 0 := by
  induction rows with
  | nil => rfl
  | cons r rows ih =>
    simp only [abund_main, List.map_cons, List.flatten_cons, List.countP_append] at ih ⊢
    rw [ih]
    simp [abundRowEvents, isDeleteEv, List.countP_cons]

/-- C2: with `dry_run` set, neither delete script issues any remote delete
call, whatever the other flags, the tree, the remote delete outcomes or the
abundance-matrix rows are; the dry run of `delete_nodes` prints exactly the
nodes that a real run would delete during the post-order walk. -/
theorem dry_run_performs_no_deletes (t : OTree) (delete_root : Bool) (stop_node : String)
    (del del2 : String → Bool) (rows : List AbundRow) :
    (delete_nodes t true delete_root stop_node del).countP isDeleteEv = 0
    ∧ (abund_main rows true).countP isDeleteEv = 0
    ∧ deletingPrints (deleteWalk del true (postorder t)).1
        = deleteCalls (deleteWalk del2 false (postorder t)).1 := by
  refine ⟨?_, abund_main_dry_no_deletes rows, ?_⟩
  · simp only [delete_nodes, List.countP_append]
    rw [deleteWalk_dry_no_deletes]
    rw [deleteWalk_failed_dry]
    simp only [ne_eq, not_true_eq_false, if_false, reduceIte]
    split <;> simp [isDeleteEv, List.countP_cons]
  · rw [deleteWalk_deletingPrints, deleteWalk_deleteCalls]


/-- C3: the post-order loop of `delete_nodes` does collect every failed
delete, in order, into `failed_delete` and keeps deleting, but the claimed
end-of-run report of the accumulated failures never happens: whenever the
failure list is nonempty, the warning print joins cutlass objects
(`"\n".join(failed_delete)`) and raises an uncaught TypeError.  Evaluating the
trace at a failing input: the failure is recorded, the delete is not retried,
and the run ends in the TypeError with no report. -/
theorem delete_nodes_warning_typeerror :
    (deleteWalk (fun _ => false) false
        (postorder (OTree.node "root" [OTree.node "a" []]))).2 = ["a"]
    ∧ delete_nodes (OTree.node "root" [OTree.node "a" []]) false true "root"
        (fun _ => false)
      = [Ev.printDeleting "a", Ev.deleteCall "a", Ev.printFailed "a",
         Ev.raiseTypeError] :=
  ⟨rfl, rfl⟩

/-- C10: the post-order walk of `delete_nodes` never issues a delete for a
node named `"root"`, and a delete call for `"root"` is issued only when
`delete_root` is set and `stop_node` equals `"root"`, and never in a dry run.
(Only this necessity holds: under those flags the root delete can still be
skipped, because any failed non-root delete makes the warning print raise
TypeError before the root-delete block.) -/
theorem delete_nodes_root_guard (t : OTree) (dry_run delete_root : Bool)
    (stop_node : String) (del : String → Bool) :
    Ev.deleteCall "root" ∉ (deleteWalk del dry_run (postorder t)).1
    ∧ (Ev.deleteCall "root" ∈ delete_nodes t dry_run delete_root stop_node del →
        (dry_run = false ∧ delete_root = true ∧ stop_node = "root")) := by
  have hwalk : Ev.deleteCall "root" ∉ (deleteWalk del dry_run (postorder t)).1 := by
    intro hmem
    obtain ⟨m, _, hev⟩ := mem_deleteWalk hmem
    obtain ⟨hm, hcase⟩ := mem_nodeEvents hev
    rcases hcase with h | h | ⟨_, h⟩
    · exact Ev.noConfusion h
    · exact Ev.noConfusion h
    · exact hm (Ev.deleteCall.inj h).symm
  refine ⟨hwalk, ?_⟩
  intro hmem
  simp only [delete_nodes, List.mem_append] at hmem
  rcases hmem with hmem | hmem
  · exact absurd hmem hwalk
  · split at hmem
    · rcases List.mem_singleton.1 hmem with h
      exact Ev.noConfusion h
    · split at hmem
      · rename_i hrt
        rcases List.mem_cons.1 hmem with h | h
        · exact Ev.noConfusion h
        · cases hdry : dry_run
          · exact ⟨rfl, hrt.1, hrt.2⟩
          · rw [hdry] at h
            simp at h
      · exact absurd hmem (List.not_mem_nil _)

/-- Witness for C10 on a concrete tree and flags. -/
theorem delete_nodes_root_guard_witness :
    Ev.deleteCall "root" ∉ (deleteWalk (fun _ => true) false
        (postorder (OTree.node "root" [OTree.node "a" []]))).1
    ∧ (Ev.deleteCall "root" ∈ delete_nodes (OTree.node "root" [OTree.node "a" []])
          false true "root" (fun _ => true) →
        ((false : Bool) = false ∧ (true : Bool) = true
          ∧ ("root" : String) = "root")) :=
  delete_nodes_root_guard (OTree.node "root" [OTree.node "a" []]) false true "root"
    (fun _ => true)

/-! ## Metadata merge (`update_ibdmdb_metadata.py`)

A metadata row is reduced to the fields the claims concern: the StudyTrax
stool and blood identifiers `st_q4` / `bl_q4`, the `External ID`, the
`Site/Sub/Coll ID`, the `data_type` and the `SiteName`; absent (NaN) values
are `none`. -/

structure MRow where
  st_q4 : Option String
  bl_q4 : Option String
  external_id : Option String
  site_sub_coll : String
  data_type : String
  site_name : String
deriving DecidableEq

/-- `generate_external_id(row)`: for rows whose `data_type` is not
`"noproduct"`, pick the first available of External ID, stool ID (`st_q4`),
blood ID (`bl_q4`); if none is available raise
`Exception("Could not generate External ID:", row)` (modelled as
`Except.error`); otherwise set `External ID` to the first character of the
`Site/Sub/Coll ID` followed by the base id with dashes removed.  Rows with
`data_type == "noproduct"` pass through unchanged. -/
def generate_external_id (row : MRow) : Except String MRow :=
  if row.data_type ≠ "noproduct" then
    let base_id : Option String :=
      match row.external_id with
      | some e => some e
      | none =>
        match row.st_q4 with
        | some s => some s
        | none => row.bl_q4
    match base_id with
    | none => Except.error "Could not generate External ID"
    | some base =>
      let eid := String.mk (row.site_sub_coll.data.take 1 ++ (pyReplaceS base "-" "").data)
      Except.ok ({ row with external_id := some eid })
  else
    Except.ok row

/-- C4 counterexample: a row with no external, stool or blood identifier makes
`generate_external_id` raise an Exception, so the merge does raise a formal
error on unmatched identifiers. -/
theorem generate_external_id_raises_cex :
    generate_external_id
      { st_q4 := none, bl_q4 := none, external_id := none,
        site_sub_coll := "M2008C1", data_type := "metagenomics",
        site_name := "Massachusetts General Hospital" }
      = Except.error "Could not generate External ID" := rfl

/-- C4 (amended): `generate_external_id` raises its Exception exactly on rows
whose `data_type` is not `"noproduct"` and which have no external, stool or
blood identifier; all other rows pass without error. -/
theorem generate_external_id_error_iff (row : MRow) :
    generate_external_id row = Except.error "Could not generate External ID" ↔
      (row.data_type ≠ "noproduct" ∧ row.external_id = none ∧ row.st_q4 = none
        ∧ row.bl_q4 = none) := by
  unfold generate_external_id
  by_cases hdt : row.data_type ≠ "noproduct"
  · cases he : row.external_id <;> cases hs : row.st_q4 <;> cases hb : row.bl_q4 <;>
      simp [hdt, he, hs, hb]
  · simp [hdt]

/-- The loop body of `resolve_dupe_ssc_ids`: it iterates over the rows whose
`Site/Sub/Coll` value is duplicated, sorted by that value (the selection and
sort are done by pandas in the source; the argument list holds those values in
sorted order).  The first row of each run keeps its value and resets the
counter; each later row of the run gets the value with its last character
replaced by `str(counter + 1)`.  Comparisons use the original (pre-update)
values, as `iterrows` yields the values read before any write-back. -/
def resolve_go : List String → Option String → Nat → List String
  | [], _, _ => []
  | s :: rest, prev_ssc, counter =>
    if some s ≠ prev_ssc then
      s :: resolve_go rest (some s) 1
    else
      String.mk (s.data.dropLast ++ (Nat.repr (counter + 1)).data)
        :: resolve_go rest prev_ssc (counter + 1)

/-- `resolve_dupe_ssc_ids`, with `prev_ssc = None` and `counter = 1` as in the
source. -/
def resolve_dupe_ssc_ids (ids : List String) : List String :=
  resolve_go ids none 1

/-- C5 counterexample: for a duplicated group whose value ends in `"2"`, the
second row is rewritten to the very same value as the first, so two rows of
the group still carry (and end with) the same `Site/Sub/Coll` value. -/
theorem resolve_dupe_ssc_ids_cex :
    resolve_dupe_ssc_ids ["A2", "A2"] = ["A2", "A2"]
    ∧ ¬ (resolve_dupe_ssc_ids ["A2", "A2"]).Nodup := by
  refine ⟨rfl, ?_⟩
  decide

theorem resolve_go_replicate (s : String) : ∀ (k c : Nat),
    resolve_go (List.replicate k s) (some s) c =
      (List.range k).map
        (fun i => String.mk (s.data.dropLast ++ (Nat.repr (c + 1 + i)).data)) := by
  intro k
  induction k with
  | zero => intro c; rfl
  | succ k ih =>
    intro c
    rw [List.replicate_succ]
    simp only [resolve_go, ne_eq, not_true_eq_false, if_false, ih, reduceIte,
      List.range_succ_eq_map, List.map_cons, List.map_map, Nat.add_zero]
    rw [List.cons.injEq]
    refine ⟨rfl, ?_⟩
    apply List.map_congr_left
    intro i _
    have harith : c + 1 + 1 + i = c + 1 + (i + 1) := by omega
    simp [Function.comp, harith]

/-- C5 (amended): over a sorted group of `n + 1` rows sharing the value `s`,
the first row keeps `s` and the `i`-th duplicate (for `i = 2, 3, ...`) gets
`s` with its final character replaced by the decimal numeral of `i`; this
disambiguates the duplicates among themselves, but the replaced value can
coincide with the kept original (namely when `s` already ends in the numeral
assigned to that duplicate), so the group need not end up with pairwise
distinct values. -/
theorem resolve_dupe_ssc_ids_amended (s : String) (n : Nat) :
    resolve_dupe_ssc_ids (List.replicate (n + 1) s) =
      s :: (List.range n).map
        (fun i => String.mk (s.data.dropLast ++ (Nat.repr (i + 2)).data)) := by
  rw [List.replicate_succ]
  simp only [resolve_dupe_ssc_ids, resolve_go, ne_eq, reduceCtorEq, not_false_eq_true,
    if_true, reduceIte]
  rw [resolve_go_replicate]
  rw [List.cons.injEq]
  refine ⟨rfl, ?_⟩
  apply List.map_congr_left
  intro i _
  have harith : 1 + 1 + i = i + 2 := by omega
  simp [harith]

/-- One stripping step: remove the first recognized trailing extension (from
the supplied extension table) that is shorter than the remaining name. -/
def stripOnce (exts : List (List Char)) (s : List Char) : Option (List Char) :=
  match exts.find? (fun e => e.isSuffixOf s && decide (e ≠ []) && decide (e.length < s.length)) with
  | none => none
  | some e => some (s.take (s.length - e.length))

def stripAllFuel (exts : List (List Char)) : Nat → List Char → List Char
  | 0, s => s
  | n + 1, s =>
    match stripOnce exts s with
    | none => s
    | some t => stripAllFuel exts n t

/-- Modelled from the spec: `get_sample_id_from_fname` lives in
`hmp2_workflows/utils/misc.py`, which is absent from the source tree; the spec
describes it as the shared sample-id-from-filename stripping helper that
derives candidate sample identifiers from filenames.  We model it as: take the
basename of the filename and strip recognized trailing extensions (a table
`exts`, e.g. `.fastq`, `.gz`, `.bam`, ...) until none is left. -/
def get_sample_id_from_fname (exts : List (List Char)) (fname : String) : String :=
  String.mk (stripAllFuel exts (basenameCh fname.data).length (basenameCh fname.data))

theorem stripOnce_some {exts : List (List Char)} {s t : List Char}
    (h : stripOnce exts s = some t) : t.length < s.length ∧ ∀ c ∈ t, c ∈ s := by
  unfold stripOnce at h
  cases hf : exts.find? (fun e => e.isSuffixOf s && decide (e ≠ []) && decide (e.length < s.length)) with
  | none => rw [hf] at h; cases h
  | some e =>
    rw [hf] at h
    have hp := List.find?_some hf
    simp only [Bool.and_eq_true, decide_eq_true_eq] at hp
    obtain ⟨⟨hsuf, hne⟩, hlt⟩ := hp
    have hepos : 0 < e.length := List.length_pos.2 hne
    cases h
    constructor
    · rw [List.length_take]
      omega
    · intro c hc
      exact List.take_subset _ _ hc

theorem stripAllFuel_none {exts : List (List Char)} {s : List Char} (n : Nat)
    (h : stripOnce exts s = none) : stripAllFuel exts n s = s := by
  cases n with
  | zero => rfl
  | succ n => simp [stripAllFuel, h]

theorem stripAllFuel_fix (exts : List (List Char)) :
    ∀ (n : Nat) (s : List Char), s.length ≤ n →
      stripOnce exts (stripAllFuel exts n s) = none := by
  intro n
  induction n with
  | zero =>
    intro s hs
    have hnil : s = [] := List.length_eq_zero.1 (Nat.le_zero.1 hs)
    subst hnil
    cases hf : stripOnce exts ((stripAllFuel exts 0 [])) with
    | none => rfl
    | some t =>
      have := (stripOnce_some hf).1
      simp [stripAllFuel] at this
  | succ n ih =>
    intro s hs
    rw [stripAllFuel]
    cases hf : stripOnce exts s with
    | none => exact hf
    | some t =>
      have hlt := (stripOnce_some hf).1
      exact ih t (by omega)

theorem stripAllFuel_subset (exts : List (List Char)) :
    ∀ (n : Nat) (s : List Char) (c : Char), c ∈ stripAllFuel exts n s → c ∈ s := by
  intro n
  induction n with
  | zero => intro s c hc; exact hc
  | succ n ih =>
    intro s c hc
    rw [stripAllFuel] at hc
    split at hc
    · exact hc
    · rename_i t ht
      exact (stripOnce_some ht).2 c (ih t c hc)

theorem basenameCh_no_slash (l : List Char) : '/' ∉ basenameCh l := by
  intro h
  rw [basenameCh, List.mem_reverse] at h
  have := List.mem_takeWhile_imp h
  simp at this

theorem basenameCh_of_no_slash {l : List Char} (h : '/' ∉ l) : basenameCh l = l := by
  rw [basenameCh, List.takeWhile_eq_self_iff.2, List.reverse_reverse]
  intro x hx
  rw [List.mem_reverse] at hx
  simp only [ne_eq, decide_eq_true_eq]
  intro hes
  subst hes
  exact h hx

/-- C6: the sample-id-from-filename derivation is idempotent: stripping the
result of a strip changes nothing, for every filename and every recognized
extension table. -/
theorem get_sample_id_from_fname_idempotent (exts : List (List Char)) (fname : String) :
    get_sample_id_from_fname exts (get_sample_id_from_fname exts fname)
      = get_sample_id_from_fname exts fname := by
  unfold get_sample_id_from_fname
  have hdata : (String.mk (stripAllFuel exts (basenameCh fname.data).length
      (basenameCh fname.data))).data
      = stripAllFuel exts (basenameCh fname.data).length (basenameCh fname.data) := rfl
  rw [hdata]
  have hnoslash : '/' ∉ stripAllFuel exts (basenameCh fname.data).length
      (basenameCh fname.data) := by
    intro hmem
    exact basenameCh_no_slash fname.data
      (stripAllFuel_subset exts _ _ _ hmem)
  rw [basenameCh_of_no_slash hnoslash]
  rw [stripAllFuel_none _ (stripAllFuel_fix exts _ _ (Nat.le_refl _))]

/-! ## Identifier reconciliation (`qc_biopsy_and_blood_samples.py`) -/

/-- `check_sample_mapping(samples, clinical_df, mapping_cols)`: over the
requested columns (modelled as lists of column values), collect the values
that occur in `samples`; the source returns them as a set. -/
def check_sample_mapping (samples : List String)
    (mapping_cols : List (List String)) : List String :=
  (mapping_cols.map (fun col => col.filter (fun v => samples.contains v))).flatten

/-- The substitution table of `main` for OCR-like transcription errors. -/
def subst_pairs : List (String × String) :=
  [("1", "I"), ("O", "0"), ("I", "1"), ("0", "O"), ("SM-", "SM")]

/-- One round of the substitution loop of `main`: apply the substitution to the
missing IDs, look the modified IDs up, and, when any were found, subtract the
reverse-substituted found IDs from the missing set. -/
def subst_round (mapping_cols : List (List String)) (missing : List String)
    (p : String × String) : List String :=
  let mod_samples := missing.map (fun s => pyReplaceS s p.1 p.2)
  let found := check_sample_mapping mod_samples mapping_cols
  if found.isEmpty then missing
  else
    let found_back := found.map (fun s => pyReplaceS s p.2 p.1)
    missing.filter (fun m => !found_back.contains m)

/-- The reconciliation flow of `main` through the end of the substitution
loop: direct match first, then the five substitution rounds applied to the
set of samples that failed the direct match. -/
def qc_missing_after_subst (samples : List String)
    (mapping_cols : List (List String)) : List String :=
  let found := check_sample_mapping samples mapping_cols
  let missing0 := samples.filter (fun s => !found.contains s)
  subst_pairs.foldl (subst_round mapping_cols) missing0

/-- C8 counterexample: sample `"A1I"` fails the direct match against a column
holding `"AII"`; substituting `1 → I` produces `"AII"`, which matches, but the
reverse substitution `I → 1` turns the match into `"A11"`, not the original
`"A1I"`, so the matched ID survives, under its original spelling, in the
missing set at the end of the substitution loop. -/
theorem qc_subst_not_removed_cex :
    pyReplaceS "A1I" "1" "I" = "AII"
    ∧ check_sample_mapping ["AII"] [["AII"]] = ["AII"]
    ∧ qc_missing_after_subst ["A1I"] [["AII"]] = ["A1I"] := by
  refine ⟨rfl, rfl, rfl⟩

theorem subst_round_sub (mapping_cols : List (List String)) (p : String × String)
    (missing : List String) : ∀ x ∈ subst_round mapping_cols missing p, x ∈ missing := by
  intro x hx
  rw [subst_round] at hx
  split at hx
  · exact hx
  · exact (List.mem_filter.1 hx).1

theorem foldl_subst_round_sub (mapping_cols : List (List String)) :
    ∀ (ps : List (String × String)) (init : List String) (x : String),
      x ∈ ps.foldl (subst_round mapping_cols) init → x ∈ init := by
  intro ps
  induction ps with
  | nil => intro init x hx; exact hx
  | cons p ps ih =>
    intro init x hx
    rw [List.foldl_cons] at hx
    exact subst_round_sub mapping_cols p init x (ih _ x hx)

/-- C8 (amended): the substitution heuristics are applied only to IDs that
failed the direct match (the missing set stays within the direct-match
failures of the manifest samples), and an ID matched after a substitution is
removed from the missing set under its reverse-substituted spelling, which is
its original spelling exactly when the reverse substitution restores it. -/
theorem qc_subst_amended (samples missing : List String)
    (mapping_cols : List (List String)) (o r s : String)
    (_hs : s ∈ missing)
    (hmatch : pyReplaceS s o r ∈
      check_sample_mapping (missing.map (fun x => pyReplaceS x o r)) mapping_cols)
    (hinv : pyReplaceS (pyReplaceS s o r) r o = s) :
    s ∉ subst_round mapping_cols missing (o, r)
    ∧ (∀ x ∈ qc_missing_after_subst samples mapping_cols,
        x ∈ samples ∧ x ∉ check_sample_mapping samples mapping_cols) := by
  constructor
  · intro hx
    rw [subst_round] at hx
    have hne : (check_sample_mapping (missing.map (fun x => pyReplaceS x o r))
        mapping_cols).isEmpty = false := by
      cases he : (check_sample_mapping (missing.map (fun x => pyReplaceS x o r))
          mapping_cols).isEmpty
      · rfl
      · rw [List.isEmpty_iff] at he
        rw [he] at hmatch
        cases hmatch
    rw [hne] at hx
    simp only [Bool.false_eq_true, if_false, List.mem_filter, Bool.not_eq_true,
      reduceIte] at hx
    have hin : s ∈ (check_sample_mapping (missing.map (fun x => pyReplaceS x o r))
        mapping_cols).map (fun x => pyReplaceS x r o) :=
      List.mem_map.2 ⟨pyReplaceS s o r, hmatch, hinv⟩
    have hcontains : ((check_sample_mapping (missing.map (fun x => pyReplaceS x o r))
        mapping_cols).map (fun x => pyReplaceS x r o)).contains s = true :=
      List.elem_eq_true_of_mem hin
    rw [hcontains] at hx
    exact absurd hx.2 (by simp)
  · intro x hx
    have hx0 := foldl_subst_round_sub mapping_cols subst_pairs _ x hx
    have hx1 := (List.mem_filter.1 hx0).1
    have hx2 := (List.mem_filter.1 hx0).2
    refine ⟨hx1, ?_⟩
    intro hmem
    have hcontains : (check_sample_mapping samples mapping_cols).contains x = true :=
      List.elem_eq_true_of_mem hmem
    rw [hcontains] at hx2
    exact absurd hx2 (by simp)

/-- Witness for C8 (amended) on concrete inputs. -/
theorem qc_subst_amended_witness :
    ("A1" ∈ (["A1"] : List String))
    ∧ pyReplaceS "A1" "1" "I" ∈
        check_sample_mapping ((["A1"] : List String).map (fun x => pyReplaceS x "1" "I")) [["AI"]]
    ∧ pyReplaceS (pyReplaceS "A1" "1" "I") "I" "1" = "A1"
    ∧ ("A1" ∉ subst_round [["AI"]] ["A1"] ("1", "I")
        ∧ (∀ x ∈ qc_missing_after_subst ["A1"] [["AI"]],
            x ∈ (["A1"] : List String)
            ∧ x ∉ check_sample_mapping ["A1"] [["AI"]])) :=
  ⟨by decide, by decide, by decide,
    qc_subst_amended ["A1"] ["A1"] [["AI"]] "1" "I" "A1" (by decide) (by decide) (by decide)⟩

/-! ## File verification (`tasks/common.py`) -/

/-- Modelled from the spec: `parse_checksums_file` (in
`hmp2_workflows/utils/misc.py`, absent from the source tree) parses an
md5sum-format checksum file into a dictionary from file name to MD5 checksum
string.  We take its result as an association list; `dict.get` returns the
first matching entry. -/
def checksums_get (checksums : List (String × String)) (k : String) : Option String :=
  (checksums.find? (fun p => p.1 == k)).map (fun p => p.2)

/-- Python truthiness of the looked-up value in `if not md5sum:`: falsy when
the lookup missed or the stored checksum is the empty string. -/
def md5_falsy : Option String → Bool
  | none => true
  | some s => s.isEmpty

/-- The loop of `verify_files`: raise
`KeyError('MD5 checksum not found.', input_file)` at the first input file whose
basename has no truthy checksum entry.  The per-file grid task registered via
`workflow.add_task_gridable` (the actual md5 run, executed later by the
scheduler) does not affect the returned value and is not modelled. -/
def verify_go (checksums : List (String × String)) :
    List String → Except (String × String) Unit
  | [] => Except.ok ()
  | f :: rest =>
    if md5_falsy (checksums_get checksums (basenameS f)) then
      Except.error ("MD5 checksum not found.", f)
    else
      verify_go checksums rest

/-- `verify_files(workflow, input_files, checksums_file)`: when no lookup
fails, the input file list is returned unchanged. -/
def verify_files (checksums : List (String × String)) (input_files : List String) :
    Except (String × String) (List String) :=
  (verify_go checksums input_files).map (fun _ => input_files)

theorem checksums_get_ne_empty {checksums : List (String × String)}
    (hval : ∀ p ∈ checksums, ¬p.2 = "") {k : String} {v : String}
    (h : checksums_get checksums k = some v) : ¬v = "" := by
  unfold checksums_get at h
  cases hf : checksums.find? (fun p => p.1 == k) with
  | none => rw [hf] at h; cases h
  | some p =>
    rw [hf] at h
    have hmem := List.mem_of_find?_eq_some hf
    cases h
    exact hval p hmem

theorem md5_falsy_iff_none {checksums : List (String × String)}
    (hval : ∀ p ∈ checksums, ¬p.2 = "") (k : String) :
    md5_falsy (checksums_get checksums k) = true ↔ checksums_get checksums k = none := by
  cases hg : checksums_get checksums k with
  | none => simp [md5_falsy]
  | some v =>
    have := checksums_get_ne_empty hval hg
    simp [md5_falsy, String.isEmpty_iff, this]

theorem verify_go_ok_iff {checksums : List (String × String)}
    (hval : ∀ p ∈ checksums, ¬p.2 = "") : ∀ files : List String,
    (verify_go checksums files = Except.ok () ↔
      ∀ f ∈ files, (checksums_get checksums (basenameS f)).isSome) := by
  intro files
  induction files with
  | nil => simp [verify_go]
  | cons f rest ih =>
    rw [verify_go]
    by_cases hf : md5_falsy (checksums_get checksums (basenameS f)) = true
    · rw [if_pos hf]
      rw [md5_falsy_iff_none hval] at hf
      simp [hf]
    · rw [if_neg hf]
      have hsome : (checksums_get checksums (basenameS f)).isSome := by
        cases hg : checksums_get checksums (basenameS f) with
        | none => rw [md5_falsy_iff_none hval, hg] at hf; exact absurd rfl hf
        | some v => rfl
      rw [ih]
      constructor
      · intro hall g hg
        rcases List.mem_cons.1 hg with rfl | hg
        · exact hsome
        · exact hall g hg
      · intro hall g hg
        exact hall g (List.mem_cons_of_mem _ hg)

theorem verify_go_error {checksums : List (String × String)}
    (hval : ∀ p ∈ checksums, ¬p.2 = "") : ∀ files : List String,
    (∃ f ∈ files, checksums_get checksums (basenameS f) = none) →
    ∃ g ∈ files, verify_go checksums files = Except.error ("MD5 checksum not found.", g)
      ∧ checksums_get checksums (basenameS g) = none := by
  intro files
  induction files with
  | nil => rintro ⟨f, hf, _⟩; cases hf
  | cons f rest ih =>
    rintro ⟨g, hg, hnone⟩
    rw [verify_go]
    by_cases hf : md5_falsy (checksums_get checksums (basenameS f)) = true
    · refine ⟨f, List.mem_cons_self _ _, by rw [if_pos hf], ?_⟩
      exact (md5_falsy_iff_none hval _).1 hf
    · rw [if_neg hf]
      rcases List.mem_cons.1 hg with rfl | hg
    
      · exact absurd ((md5_falsy_iff_none hval _).2 hnone) hf
      · obtain ⟨g2, hg2, hrun, hn2⟩ := ih ⟨g, hg, hnone⟩
        exact ⟨g2, List.mem_cons_of_mem _ hg2, hrun, hn2⟩

/-- C9: with a parsed checksum dictionary (md5sum format, hence nonempty
checksum strings), `verify_files` returns exactly the input file list
unchanged precisely when every input file basename has a checksum entry, and
raises a `KeyError` naming an offending input file whenever some input file
basename has no entry. -/
theorem verify_files_spec (checksums : List (String × String)) (input_files : List String)
    (hval : ∀ p ∈ checksums, ¬p.2 = "") :
    (verify_files checksums input_files = Except.ok input_files ↔
      ∀ f ∈ input_files, (checksums_get checksums (basenameS f)).isSome)
    ∧ ((∃ f ∈ input_files, checksums_get checksums (basenameS f) = none) →
      ∃ g ∈ input_files,
        verify_files checksums input_files = Except.error ("MD5 checksum not found.", g)
        ∧ checksums_get checksums (basenameS g) = none) := by
  constructor
  · rw [← verify_go_ok_iff hval]
    unfold verify_files
    cases hrun : verify_go checksums input_files with
    | ok u => cases u; simp [Except.map]
    | error e => simp [Except.map]
  · intro hex
    obtain ⟨g, hg, hrun, hnone⟩ := verify_go_error hval input_files hex
    refine ⟨g, hg, ?_, hnone⟩
    unfold verify_files
    rw [hrun]
    rfl

/-- Witness for C9 on a concrete checksum table and file list. -/
theorem verify_files_spec_witness :
    (∀ p ∈ ([("a.bam", "d41d8cd9")] : List (String × String)), ¬p.2 = "")
    ∧ ((verify_files [("a.bam", "d41d8cd9")] ["/data/a.bam"]
          = Except.ok ["/data/a.bam"] ↔
        ∀ f ∈ (["/data/a.bam"] : List String),
          (checksums_get [("a.bam", "d41d8cd9")] (basenameS f)).isSome)) :=
  ⟨by decide,
    (verify_files_spec [("a.bam", "d41d8cd9")] ["/data/a.bam"] (by decide)).1⟩
